import Mathlib

/-!
# Verification of the translation reconciler and language projector

Shallow embedding of the i18n core of the palyan.am backend:

* `AppHelpers.save_translations` (src/helpers.py, lines 62-123) — the
  "Reconciler": merges an incoming language→fields map into the set of
  per-language translation rows of one entity.
* `AppHelpers.apply_language_filter` (src/helpers.py, lines 156-209) — the
  "Projector": shapes an entity plus its translation rows into either a
  flat single-language view or a nested all-languages view.

Modelling decisions, each tied to the source:

* A translation row (`TransRow`) is its `language` column (the SQLAlchemy
  `LanguageEnum` column of every `*Translation` table in src/db.py) plus an
  association list of the remaining attribute values.  `None` in Python is
  `Option.none`.  Python's `getattr(t, k, None)` / `setattr(t, k, v)` become
  `getAttr` / `setAttr`; Python `dict` building with overwriting becomes
  `dictInsert` (replace the first binding in place, else append), which is
  exactly CPython's insertion-order-preserving dict update.
* The database state visible to one entity is `EntityState`: the live rows of
  the session plus the last committed snapshot; `db.commit()` copies the live
  rows into the snapshot.  Every translation table carries a
  `UniqueConstraint(entity_fk, "language")` (src/db.py), so states satisfy
  `langsNodup`; theorems that need the constraint take it as a hypothesis.
* `save_translations`'s `translations_dict` parameter may be `None`, a string
  or a dict (the code's early returns at lines 71-76); this is `TransInput`.
  A dict value may be a string (shorthand for `{name_field: value}`) or a
  field map; this is `TransData` and `normalizeData` (lines 92-103; the
  pydantic `.dict()` branch also yields a plain field map).
* `apply_language_filter` introspects the translation table's columns via the
  ORM mapper; the model passes that column list in as `tschema`.  SQLAlchemy
  mapper column keys are unique, so theorems may assume `tschema.Nodup`.
  The recursion of step 4 into `features`/`author` applies the very same
  function to the child entities; the claims below quantify over a single
  entity's own translations, so the model covers an entity without nested
  relations (`hasattr(obj, "features")` false).
-/

namespace Palyan

/-- `LanguageEnum` of src/db.py: the closed set {en, ru, hy}. -/
inductive Lang
  | en
  | ru
  | hy
deriving DecidableEq, Repr

/-- `.value` of a `LanguageEnum` member (for this enum, names = values). -/
def Lang.value : Lang → String
  | .en => "en"
  | .ru => "ru"
  | .hy => "hy"

/-- `LanguageEnum(lang_code)`: `none` models the `ValueError` branch. -/
def langOfString : String → Option Lang
  | "en" => some Lang.en
  | "ru" => some Lang.ru
  | "hy" => some Lang.hy
  | _ => none

/-- Iteration order of `LanguageEnum.__members__.keys()`. -/
def allLangCodes : List String := ["en", "ru", "hy"]

/-- Attribute values of a row or a field map: name → value-or-null. -/
abbrev Attrs := List (String × Option String)

/-- First-match association-list lookup (Python `d[k]` / `d.get(k)`). -/
def alookup {β : Type} : List (String × β) → String → Option β
  | [], _ => none
  | (k, v) :: rest, key => if k = key then some v else alookup rest key

/-- Python dict write `d[k] = v`: overwrite in place, else append.  CPython
    dicts keep the original insertion position on overwrite. -/
def dictInsert {β : Type} : List (String × β) → String → β → List (String × β)
  | [], k, v => [(k, v)]
  | (k', v') :: rest, k, v =>
      if k' = k then (k, v) :: rest else (k', v') :: dictInsert rest k v

/-- `getattr(t, k, None)`: absent attribute reads as null. -/
def getAttr (attrs : Attrs) (k : String) : Option String :=
  match alookup attrs k with
  | some v => v
  | none => none

/-- `setattr(t, k, v)` on the attribute map. -/
def setAttr (attrs : Attrs) (k : String) (v : Option String) : Attrs :=
  dictInsert attrs k v

/-- One row of a `*Translation` table: the `language` column plus the other
    attribute values.  The `language` column is held apart from `attrs`; the
    well-formed field maps of the claims never name it (it is on the
    projector's exclusion list). -/
structure TransRow where
  language : Lang
  attrs : Attrs
deriving DecidableEq, Repr

/-- The translation rows of one entity as seen by the session (`rows`),
    together with the last committed snapshot (`committed`);
    `db.commit()` sets `committed := rows`. -/
structure EntityState where
  rows : List TransRow
  committed : List TransRow
deriving DecidableEq, Repr

/-- The uniqueness constraint `UniqueConstraint(fk, "language")` of every
    translation table in src/db.py: at most one row per language. -/
def langsNodup (rows : List TransRow) : Prop :=
  (rows.map (fun r => r.language)).Nodup

instance : DecidablePred langsNodup := fun rows =>
  inferInstanceAs (Decidable ((rows.map (fun r : TransRow => r.language)).Nodup))

/-- A value of the incoming dict: either the string shorthand or a field
    map (lines 92-103 of src/helpers.py; the pydantic branch produces a
    plain field map as well). -/
inductive TransData
  | str (s : String)
  | map (m : Attrs)
deriving DecidableEq, Repr

/-- Lines 92-103: a bare string becomes `{name_field: value}`. -/
def normalizeData (nameField : String) : TransData → Attrs
  | .str s => [(nameField, some s)]
  | .map m => m

/-- The `translations_dict` argument: `None`, a string, or a dict in
    insertion order (line 71's falsy check catches `None`, `""` and `{}`). -/
inductive TransInput
  | null
  | text (s : String)
  | dict (d : List (String × TransData))
deriving DecidableEq, Repr

/-- First row carrying the given language (`existing[language.value]`;
    under `langsNodup` this is the unique such row). -/
def rowLookup : List TransRow → Lang → Option TransRow
  | [], _ => none
  | r :: rest, l => if r.language = l then some r else rowLookup rest l

/-- `language.value in existing`. -/
def hasLang (rows : List TransRow) (l : Lang) : Bool :=
  (rowLookup rows l).isSome

/-- `for k, v in data_map.items(): setattr(trans_obj, k, v)` (lines 110-111). -/
def applyUpdates (attrs : Attrs) (m : Attrs) : Attrs :=
  m.foldl (fun a kv => setAttr a kv.1 kv.2) attrs

/-- Update, within the row list, the row `existing[language.value]`. -/
def updateFirst : List TransRow → Lang → Attrs → List TransRow
  | [], _, _ => []
  | r :: rest, l, m =>
      if r.language = l then { r with attrs := applyUpdates r.attrs m } :: rest
      else r :: updateFirst rest l m

/-- State threaded through the `for lang_code, data in translations_dict`
    loop of lines 84-116: the existing rows (updated in place), the rows
    handed to `db.add`, and `incoming_langs`. -/
structure LoopState where
  existing : List TransRow
  added : List TransRow
  incomingLangs : List Lang
deriving DecidableEq, Repr

/-- One iteration of the loop (lines 84-116): skip an unrecognized code,
    normalize the data, record the language as seen, then update the
    existing row or create `ModelClass(language=language, **data_map)`. -/
def processItem (nameField : String) (ls : LoopState) (item : String × TransData) :
    LoopState :=
  match langOfString item.1 with
  | none => ls
  | some lang =>
      let dataMap := normalizeData nameField item.2
      let ls' : LoopState := { ls with incomingLangs := ls.incomingLangs ++ [lang] }
      if hasLang ls'.existing lang then
        { ls' with existing := updateFirst ls'.existing lang dataMap }
      else
        { ls' with added := ls'.added ++ [⟨lang, dataMap⟩] }

/-- The whole loop. -/
def processAll (nameField : String) (ls : LoopState) (d : List (String × TransData)) :
    LoopState :=
  d.foldl (processItem nameField) ls

/-- `AppHelpers.save_translations` (src/helpers.py, lines 62-123) restricted
    to the rows of `db_obj`'s entity.  Lines 71-76 return early on falsy or
    string input; otherwise the loop runs, rows whose language is not in
    `incoming_langs` are deleted (lines 118-121; the `existing` dict holds
    one object per language, and updates never change a row's language, so
    deleting by object equals filtering by language), and `db.commit()`
    (line 123) publishes the session rows. -/
def save_translations (st : EntityState) (input : TransInput) (nameField : String) :
    EntityState :=
  match input with
  | .null => st
  | .text _ => st
  | .dict [] => st
  | .dict d =>
      let ls := processAll nameField ⟨st.rows, [], []⟩ d
      let remaining := ls.existing.filter (fun r => decide (r.language ∈ ls.incomingLangs))
      let newRows := remaining ++ ls.added
      { rows := newRows, committed := newRows }

/-- The key blocklist of line 177 of src/helpers.py. -/
def excludedKeys : List String :=
  ["id", "language", "types_id", "category_id", "product_id", "news_id",
   "feature_id", "author_id"]

/-- The `t_cols` dict of lines 175-178: every column of the translation
    table (`tschema`, the mapper's column keys, in column order) except the
    blocklisted ones, each read with `getattr`. -/
def tCols (tschema : List String) (r : TransRow) : Attrs :=
  (tschema.filter (fun c => !excludedKeys.contains c)).map
    (fun c => (c, getAttr r.attrs c))

/-- The `translations_map` dict of lines 170-179, keyed by
    `t.language.value`, built in row order (later rows with the same
    language overwrite, keeping dict position). -/
def translationsMap (tschema : List String) (rows : List TransRow) :
    List (String × Attrs) :=
  rows.foldl (fun m r => dictInsert m r.language.value (tCols tschema r)) []

/-- An output value of the projector: a scalar column value, or the
    per-field `{lang: value}` map of the all-languages branch. -/
inductive ProjValue
  | scalar (v : Option String)
  | langMap (m : List (String × Option String))
deriving DecidableEq, Repr

/-- The serialized `data` dict. -/
abbrev ProjData := List (String × ProjValue)

/-- The `lang and lang in translations_map` branch, lines 182-186:
    overwrite the base data with the requested language's columns and tag
    `data["language"] = lang`. -/
def projectFlat (data : ProjData) (s : String) (tcols : Attrs) : ProjData :=
  dictInsert
    (tcols.foldl (fun d kv => dictInsert d kv.1 (ProjValue.scalar kv.2)) data)
    "language" (ProjValue.scalar (some s))

/-- The all-languages branch, lines 187-195: `translatable_keys` are the
    keys of the first entry of `translations_map`; for each key attach
    `{lang_code: translations_map.get(lang_code, {}).get(key, "")}` over
    `LanguageEnum.__members__.keys()`. -/
def projectNested (tmap : List (String × Attrs)) (data : ProjData) : ProjData :=
  let translatableKeys : List String :=
    match tmap with
    | [] => []
    | (_, tcols) :: _ => tcols.map Prod.fst
  translatableKeys.foldl
    (fun d key =>
      dictInsert d key (ProjValue.langMap
        (allLangCodes.map (fun lc =>
          (lc,
            match alookup tmap lc with
            | some tcols =>
                match alookup tcols key with
                | some v => v
                | none => some ""
            | none => some "")))))
    data

/-- An entity as the projector sees it: its own scalar columns (the
    mapper's columns, line 167) and its translation rows. -/
structure Entity where
  base : List (String × Option String)
  translations : List TransRow
deriving DecidableEq, Repr

/-- `AppHelpers.apply_language_filter` (src/helpers.py, lines 156-209) for
    an entity without nested relations.  The branch condition of line 182 is
    `lang and lang in translations_map`: a `None` or empty `lang`, or a
    language with no entry in the map, falls into the all-languages
    branch. -/
def apply_language_filter (tschema : List String) (e : Entity)
    (lang : Option String) : ProjData :=
  let data : ProjData := e.base.map (fun kv => (kv.1, ProjValue.scalar kv.2))
  let tmap := translationsMap tschema e.translations
  match lang with
  | none => projectNested tmap data
  | some s =>
      if s = "" then projectNested tmap data
      else
        match alookup tmap s with
        | some tcols => projectFlat data s tcols
        | none => projectNested tmap data

/-- The recognized languages of an incoming dict, in order. -/
def recLangs (d : List (String × TransData)) : List Lang :=
  d.filterMap (fun it => langOfString it.1)

/-- A column list for concrete instances: `ProductTranslation` of src/db.py
    (`id`, `product_id`, `language`, `name`, `description`). -/
def productSchema : List String :=
  ["id", "product_id", "language", "name", "description"]

/-! ## Association-list lemmas -/

theorem alookup_dictInsert_self {β : Type} (l : List (String × β)) (k : String)
    (v : β) : alookup (dictInsert l k v) k = some v := by
  induction l with
  | nil => simp [dictInsert, alookup]
  | cons p rest ih =>
      by_cases h : p.1 = k
      · simp [dictInsert, alookup, h]
      · simp [dictInsert, alookup, h, ih]

theorem alookup_dictInsert_ne {β : Type} (l : List (String × β)) (k k' : String)
    (v : β) (h : k' ≠ k) : alookup (dictInsert l k v) k' = alookup l k' := by
  have hk : k ≠ k' := fun e => h e.symm
  induction l with
  | nil => simp [dictInsert, alookup, hk]
  | cons p rest ih =>
      by_cases hp : p.1 = k
      · rw [show dictInsert (p :: rest) k v = (k, v) :: rest by
          simp [dictInsert, hp]]
        have hp' : p.1 ≠ k' := hp ▸ hk
        simp [alookup, hk, hp']
      · rw [show dictInsert (p :: rest) k v = p :: dictInsert rest k v by
          simp [dictInsert, hp]]
        by_cases hp' : p.1 = k'
        · simp [alookup, hp']
        · simp [alookup, hp', ih]

theorem dictInsert_eq_self {β : Type} {l : List (String × β)} {k : String}
    {v : β} (h : alookup l k = some v) : dictInsert l k v = l := by
  induction l with
  | nil => simp [alookup] at h
  | cons p rest ih =>
      by_cases hp : p.1 = k
      · simp only [alookup, if_pos hp, Option.some.injEq] at h
        have : (k, v) = p := by
          rcases p with ⟨pk, pv⟩
          simp only at hp h
          rw [hp, h]
        simp [dictInsert, hp, this]
      · simp only [alookup, if_neg hp] at h
        simp [dictInsert, hp, ih h]

theorem alookup_eq_none {β : Type} {l : List (String × β)} {k : String}
    (h : k ∉ l.map Prod.fst) : alookup l k = none := by
  induction l with
  | nil => simp [alookup]
  | cons p rest ih =>
      simp only [List.map_cons, List.mem_cons] at h
      push_neg at h
      have h1 : p.1 ≠ k := fun e => h.1 e.symm
      simp [alookup, h1, ih h.2]

theorem alookup_of_mem_nodup {β : Type} {l : List (String × β)} {k : String}
    {v : β} (hmem : (k, v) ∈ l) (hnd : (l.map Prod.fst).Nodup) :
    alookup l k = some v := by
  induction l with
  | nil => simp at hmem
  | cons p rest ih =>
      simp only [List.map_cons, List.nodup_cons] at hnd
      rcases List.mem_cons.mp hmem with h | h
      · subst h
        simp [alookup]
      · have hk : p.1 ≠ k := by
          intro e
          exact hnd.1 (e ▸ List.mem_map_of_mem Prod.fst h)
        simp [alookup, hk, ih h hnd.2]

theorem alookup_isSome_of_mem {β : Type} {l : List (String × β)} {k : String}
    {v : β} (hmem : (k, v) ∈ l) : (alookup l k).isSome := by
  induction l with
  | nil => simp at hmem
  | cons p rest ih =>
      rcases List.mem_cons.mp hmem with h | h
      · subst h; simp [alookup]
      · by_cases hp : p.1 = k
        · simp [alookup, hp]
        · simp [alookup, hp, ih h]

theorem mem_of_alookup_eq_some {β : Type} {l : List (String × β)} {k : String}
    {v : β} (h : alookup l k = some v) : (k, v) ∈ l := by
  induction l with
  | nil => simp [alookup] at h
  | cons p rest ih =>
      by_cases hp : p.1 = k
      · simp only [alookup, if_pos hp, Option.some.injEq] at h
        subst h
        exact hp ▸ List.mem_cons_self p rest
      · simp only [alookup, if_neg hp] at h
        exact List.mem_cons_of_mem _ (ih h)

/-- Folding `dictInsert` over a pair list, keys disjoint from `f`. -/
theorem alookup_foldl_pairs_not_mem {β γ : Type} (h : γ → β)
    (m : List (String × γ)) (data : List (String × β)) (f : String)
    (hf : f ∉ m.map Prod.fst) :
    alookup (m.foldl (fun d kv => dictInsert d kv.1 (h kv.2)) data) f
      = alookup data f := by
  induction m generalizing data with
  | nil => rfl
  | cons kv rest ih =>
      simp only [List.map_cons, List.mem_cons] at hf
      push_neg at hf
      rw [List.foldl_cons, ih _ hf.2, alookup_dictInsert_ne _ _ _ _ hf.1]

/-- Folding `dictInsert` over a pair list with distinct keys: a member pair
    is looked up to its (transformed) value. -/
theorem alookup_foldl_pairs_mem {β γ : Type} (h : γ → β)
    (m : List (String × γ)) (data : List (String × β)) (f : String) (v : γ)
    (hnd : (m.map Prod.fst).Nodup) (hmem : (f, v) ∈ m) :
    alookup (m.foldl (fun d kv => dictInsert d kv.1 (h kv.2)) data) f
      = some (h v) := by
  induction m generalizing data with
  | nil => simp at hmem
  | cons kv rest ih =>
      simp only [List.map_cons, List.nodup_cons] at hnd
      rcases List.mem_cons.mp hmem with he | he
      · subst he
        rw [List.foldl_cons,
          alookup_foldl_pairs_not_mem h rest _ f hnd.1,
          alookup_dictInsert_self]
      · rw [List.foldl_cons, ih _ hnd.2 he]

/-- Folding `dictInsert` over a key list with a key-determined value. -/
theorem alookup_foldl_keys_not_mem {β : Type} (g : String → β)
    (keys : List String) (data : List (String × β)) (f : String)
    (hf : f ∉ keys) :
    alookup (keys.foldl (fun d key => dictInsert d key (g key)) data) f
      = alookup data f := by
  induction keys generalizing data with
  | nil => rfl
  | cons key rest ih =>
      simp only [List.mem_cons] at hf
      push_neg at hf
      rw [List.foldl_cons, ih _ hf.2, alookup_dictInsert_ne _ _ _ _ hf.1]

theorem alookup_foldl_keys_mem {β : Type} (g : String → β)
    (keys : List String) (data : List (String × β)) (f : String)
    (hf : f ∈ keys) :
    alookup (keys.foldl (fun d key => dictInsert d key (g key)) data) f
      = some (g f) := by
  induction keys generalizing data with
  | nil => simp at hf
  | cons key rest ih =>
      by_cases hfr : f ∈ rest
      · rw [List.foldl_cons, ih _ hfr]
      · have : f = key := by
          rcases List.mem_cons.mp hf with h | h
          · exact h
          · exact absurd h hfr
        subst this
        rw [List.foldl_cons, alookup_foldl_keys_not_mem g rest _ f hfr,
          alookup_dictInsert_self]

/-- Looking up within `keys.map (fun k => (k, g k))`. -/
theorem alookup_map_keys {β : Type} (g : String → β) (keys : List String)
    (f : String) (hf : f ∈ keys) :
    alookup (keys.map (fun k => (k, g k))) f = some (g f) := by
  induction keys with
  | nil => simp at hf
  | cons key rest ih =>
      by_cases h : key = f
      · subst h
        simp [alookup]
      · rcases List.mem_cons.mp hf with he | he
        · exact absurd he.symm h
        · simp [alookup, h, ih he]

/-! ## Language-code lemmas -/

theorem langOfString_eq_some {s : String} {l : Lang} :
    langOfString s = some l ↔ s = l.value := by
  constructor
  · intro h
    unfold langOfString at h
    split at h
    · cases h; rfl
    · cases h; rfl
    · cases h; rfl
    · cases h
  · intro h
    subst h
    cases l <;> rfl

theorem langOfString_inj {s t : String} {l : Lang}
    (hs : langOfString s = some l) (ht : langOfString t = some l) : s = t := by
  rw [langOfString_eq_some] at hs ht
  rw [hs, ht]

theorem Lang.value_inj {l l' : Lang} (h : l.value = l'.value) : l = l' := by
  cases l <;> cases l' <;> first | rfl | (exfalso; exact absurd h (by decide))

theorem Lang.value_mem_allLangCodes (l : Lang) : l.value ∈ allLangCodes := by
  cases l <;> decide

theorem Lang.value_ne_empty (l : Lang) : l.value ≠ "" := by
  cases l <;> decide

/-! ## Row-list lemmas -/

theorem rowLookup_eq_none_iff {rows : List TransRow} {l : Lang} :
    rowLookup rows l = none ↔ ∀ r ∈ rows, r.language ≠ l := by
  induction rows with
  | nil => simp [rowLookup]
  | cons r rest ih =>
      by_cases h : r.language = l
      · simp [rowLookup, h]
      · simp [rowLookup, h, ih]

theorem rowLookup_mem {rows : List TransRow} {l : Lang} {r : TransRow}
    (h : rowLookup rows l = some r) : r ∈ rows ∧ r.language = l := by
  induction rows with
  | nil => simp [rowLookup] at h
  | cons r0 rest ih =>
      by_cases h0 : r0.language = l
      · simp only [rowLookup, if_pos h0, Option.some.injEq] at h
        exact ⟨h ▸ List.mem_cons_self r0 rest, h ▸ h0⟩
      · simp only [rowLookup, if_neg h0] at h
        exact ⟨List.mem_cons_of_mem _ (ih h).1, (ih h).2⟩

theorem hasLang_iff {rows : List TransRow} {l : Lang} :
    hasLang rows l = true ↔ l ∈ rows.map (fun r => r.language) := by
  unfold hasLang
  rcases h : rowLookup rows l with _ | r
  · rw [rowLookup_eq_none_iff] at h
    simp only [Option.isSome_none, Bool.false_eq_true, false_iff]
    intro hc
    rcases List.mem_map.mp hc with ⟨r, hr, he⟩
    exact h r hr he
  · simp only [Option.isSome_some, true_iff]
    exact List.mem_map.mpr ⟨r, (rowLookup_mem h).1, (rowLookup_mem h).2⟩

theorem hasLang_congr {rows rows' : List TransRow} {l : Lang}
    (h : rows.map (fun r => r.language) = rows'.map (fun r => r.language)) :
    hasLang rows l = hasLang rows' l := by
  rcases hb : hasLang rows' l with _ | _
  · rcases hb' : hasLang rows l with _ | _
    · rfl
    · exact absurd (h ▸ hasLang_iff.mp hb') (fun hc => by simp [hasLang_iff.mpr hc] at hb)
  · exact hasLang_iff.mpr (h ▸ hasLang_iff.mp hb)

theorem updateFirst_map_language (rows : List TransRow) (l : Lang) (m : Attrs) :
    (updateFirst rows l m).map (fun r => r.language)
      = rows.map (fun r => r.language) := by
  induction rows with
  | nil => rfl
  | cons r rest ih =>
      by_cases h : r.language = l
      · simp [updateFirst, h]
      · simp [updateFirst, h, ih]

theorem rowLookup_updateFirst_self {rows : List TransRow} {l : Lang}
    {r : TransRow} (m : Attrs) (h : rowLookup rows l = some r) :
    rowLookup (updateFirst rows l m) l
      = some { r with attrs := applyUpdates r.attrs m } := by
  induction rows with
  | nil => simp [rowLookup] at h
  | cons r0 rest ih =>
      by_cases h0 : r0.language = l
      · simp only [rowLookup, if_pos h0, Option.some.injEq] at h
        subst h
        simp [updateFirst, h0, rowLookup]
      · simp only [rowLookup, if_neg h0] at h
        simp [updateFirst, h0, rowLookup, ih h]

theorem rowLookup_updateFirst_ne (rows : List TransRow) (l l' : Lang)
    (m : Attrs) (h : l' ≠ l) :
    rowLookup (updateFirst rows l m) l' = rowLookup rows l' := by
  induction rows with
  | nil => rfl
  | cons r0 rest ih =>
      have hln : ¬ l = l' := fun e => h e.symm
      by_cases h0 : r0.language = l
      · have h1 : r0.language ≠ l' := h0 ▸ hln
        simp [updateFirst, h0, rowLookup, h1, hln]
      · by_cases h0' : r0.language = l'
        · simp [updateFirst, h0, rowLookup, h0', h]
        · simp [updateFirst, h0, rowLookup, h0', ih]

theorem updateFirst_eq_self {rows : List TransRow} {l : Lang} {r : TransRow}
    {m : Attrs} (h : rowLookup rows l = some r)
    (hfix : applyUpdates r.attrs m = r.attrs) : updateFirst rows l m = rows := by
  induction rows with
  | nil => rfl
  | cons r0 rest ih =>
      by_cases h0 : r0.language = l
      · simp only [rowLookup, if_pos h0, Option.some.injEq] at h
        subst h
        rcases r0 with ⟨rl, ra⟩
        simp only at h0
        subst h0
        simp only at hfix
        simp [updateFirst, hfix]
      · simp only [rowLookup, if_neg h0] at h
        simp [updateFirst, h0, ih h]

theorem updateFirst_of_none {rows : List TransRow} {l : Lang} (m : Attrs)
    (h : rowLookup rows l = none) : updateFirst rows l m = rows := by
  induction rows with
  | nil => rfl
  | cons r0 rest ih =>
      by_cases h0 : r0.language = l
      · simp [rowLookup, h0] at h
      · simp only [rowLookup, if_neg h0] at h
        simp [updateFirst, h0, ih h]

theorem rowLookup_append (a b : List TransRow) (l : Lang) :
    rowLookup (a ++ b) l
      = match rowLookup a l with
        | some r => some r
        | none => rowLookup b l := by
  induction a with
  | nil => simp [rowLookup]
  | cons r rest ih =>
      by_cases h : r.language = l
      · simp [rowLookup, h]
      · simp [rowLookup, h, ih]

theorem rowLookup_filter (rows : List TransRow) (l : Lang)
    (p : TransRow → Bool) (hp : ∀ r ∈ rows, r.language = l → p r = true) :
    rowLookup (rows.filter p) l = rowLookup rows l := by
  induction rows with
  | nil => rfl
  | cons r rest ih =>
      have ih' := ih (fun r hr => hp r (List.mem_cons_of_mem _ hr))
      by_cases h : r.language = l
      · rw [List.filter_cons,
          if_pos (hp r (List.mem_cons_self r rest) h)]
        simp [rowLookup, h]
      · by_cases hpr : p r = true
        · rw [List.filter_cons, if_pos hpr]
          simp [rowLookup, h, ih']
        · rw [List.filter_cons, if_neg hpr]
          simp [rowLookup, h, ih']

/-! ## `applyUpdates` lemmas -/

theorem alookup_applyUpdates_mem {a m : Attrs} {f : String} {v : Option String}
    (hnd : (m.map Prod.fst).Nodup) (hmem : (f, v) ∈ m) :
    alookup (applyUpdates a m) f = some v :=
  alookup_foldl_pairs_mem (fun x => x) m a f v hnd hmem

theorem alookup_applyUpdates_not_mem {a m : Attrs} {f : String}
    (hf : f ∉ m.map Prod.fst) : alookup (applyUpdates a m) f = alookup a f :=
  alookup_foldl_pairs_not_mem (fun x => x) m a f hf

theorem applyUpdates_eq_self {a m : Attrs}
    (h : ∀ kv ∈ m, alookup a kv.1 = some kv.2) : applyUpdates a m = a := by
  induction m with
  | nil => rfl
  | cons kv rest ih =>
      unfold applyUpdates at ih ⊢
      rw [List.foldl_cons]
      have h1 : setAttr a kv.1 kv.2 = a :=
        dictInsert_eq_self (h kv (List.mem_cons_self kv rest))
      rw [h1]
      exact ih (fun kv' hkv' => h kv' (List.mem_cons_of_mem _ hkv'))

/-! ## Loop lemmas -/

/-- The rows the loop hands to `db.add`: one per incoming entry whose
    language is recognized and not already present among the existing
    rows. -/
def createdRows (rows : List TransRow) (nameField : String)
    (d : List (String × TransData)) : List TransRow :=
  d.filterMap (fun it =>
    match langOfString it.1 with
    | none => none
    | some l =>
        if hasLang rows l then none
        else some ⟨l, normalizeData nameField it.2⟩)

theorem processAll_nil (nf : String) (ls : LoopState) :
    processAll nf ls [] = ls := rfl

theorem processAll_cons (nf : String) (ls : LoopState)
    (it : String × TransData) (d : List (String × TransData)) :
    processAll nf ls (it :: d) = processAll nf (processItem nf ls it) d := rfl

theorem processAll_append (nf : String) (ls : LoopState)
    (d1 d2 : List (String × TransData)) :
    processAll nf ls (d1 ++ d2) = processAll nf (processAll nf ls d1) d2 :=
  List.foldl_append _ _ _ _

theorem processItem_skip {nf : String} {ls : LoopState}
    {it : String × TransData} (h : langOfString it.1 = none) :
    processItem nf ls it = ls := by
  rcases it with ⟨k, dt⟩
  simp only [processItem] at *
  rw [h]

theorem processItem_update {nf : String} {ls : LoopState} {k : String}
    {dt : TransData} {lang : Lang} (h : langOfString k = some lang)
    (hl : hasLang ls.existing lang = true) :
    processItem nf ls (k, dt)
      = { existing := updateFirst ls.existing lang (normalizeData nf dt),
          added := ls.added,
          incomingLangs := ls.incomingLangs ++ [lang] } := by
  simp only [processItem]
  rw [h]
  simp [hl]

theorem processItem_create {nf : String} {ls : LoopState} {k : String}
    {dt : TransData} {lang : Lang} (h : langOfString k = some lang)
    (hl : hasLang ls.existing lang = false) :
    processItem nf ls (k, dt)
      = { existing := ls.existing,
          added := ls.added ++ [⟨lang, normalizeData nf dt⟩],
          incomingLangs := ls.incomingLangs ++ [lang] } := by
  simp only [processItem]
  rw [h]
  simp [hl]

theorem processItem_existing_langs (nf : String) (ls : LoopState)
    (it : String × TransData) :
    (processItem nf ls it).existing.map (fun r => r.language)
      = ls.existing.map (fun r => r.language) := by
  rcases it with ⟨k, dt⟩
  rcases h : langOfString k with _ | lang
  · rw [processItem_skip h]
  · rcases hl : hasLang ls.existing lang with _ | _
    · rw [processItem_create h hl]
    · rw [processItem_update h hl]
      exact updateFirst_map_language _ _ _

theorem processAll_existing_langs (nf : String) (ls : LoopState)
    (d : List (String × TransData)) :
    (processAll nf ls d).existing.map (fun r => r.language)
      = ls.existing.map (fun r => r.language) := by
  induction d generalizing ls with
  | nil => rfl
  | cons it rest ih =>
      rw [processAll_cons, ih, processItem_existing_langs]

theorem processAll_incomingLangs (nf : String) (ls : LoopState)
    (d : List (String × TransData)) :
    (processAll nf ls d).incomingLangs = ls.incomingLangs ++ recLangs d := by
  induction d generalizing ls with
  | nil => simp [processAll_nil, recLangs]
  | cons it rest ih =>
      rw [processAll_cons, ih]
      rcases h : langOfString it.1 with _ | lang
      · rw [processItem_skip h]
        simp [recLangs, List.filterMap_cons, h]
      · rcases hl : hasLang ls.existing lang with _ | _
        · rw [processItem_create h hl]
          simp [recLangs, List.filterMap_cons, h]
        · rw [processItem_update h hl]
          simp [recLangs, List.filterMap_cons, h]

theorem processAll_added (nf : String) (ls : LoopState)
    (d : List (String × TransData)) :
    (processAll nf ls d).added = ls.added ++ createdRows ls.existing nf d := by
  induction d generalizing ls with
  | nil => simp [processAll_nil, createdRows]
  | cons it rest ih =>
      rw [processAll_cons, ih]
      have hcongr : createdRows (processItem nf ls it).existing nf rest
          = createdRows ls.existing nf rest := by
        apply List.filterMap_congr
        intro it' _
        simp only [hasLang_congr (processItem_existing_langs nf ls it)]
      rw [hcongr]
      rcases h : langOfString it.1 with _ | lang
      · rw [processItem_skip h]
        simp [createdRows, List.filterMap_cons, h]
      · rcases hl : hasLang ls.existing lang with _ | _
        · rw [processItem_create h hl]
          simp [createdRows, List.filterMap_cons, h, hl]
        · rw [processItem_update h hl]
          simp [createdRows, List.filterMap_cons, h, hl]

theorem processAll_rowLookup_untouched (nf : String) (ls : LoopState)
    (d : List (String × TransData)) (l : Lang)
    (h : ∀ it ∈ d, langOfString it.1 ≠ some l) :
    rowLookup (processAll nf ls d).existing l = rowLookup ls.existing l
      ∧ rowLookup (processAll nf ls d).added l = rowLookup ls.added l := by
  induction d generalizing ls with
  | nil => exact ⟨rfl, rfl⟩
  | cons it rest ih =>
      have hit := h it (List.mem_cons_self it rest)
      have hrest := fun it' h' => h it' (List.mem_cons_of_mem _ h')
      rw [processAll_cons]
      rcases hi : langOfString it.1 with _ | lang
      · rw [processItem_skip hi]
        exact ih ls hrest
      · have hne : lang ≠ l := fun e => hit (e ▸ hi)
        rcases hl : hasLang ls.existing lang with _ | _
        · rw [processItem_create hi hl]
          have ih' := ih ⟨ls.existing, ls.added ++ [⟨lang, normalizeData nf it.2⟩], ls.incomingLangs ++ [lang]⟩ hrest
          refine ⟨ih'.1, ?_⟩
          have h2 : rowLookup (ls.added ++ [(⟨lang, normalizeData nf it.2⟩ : TransRow)]) l
              = rowLookup ls.added l := by
            rw [rowLookup_append]
            rcases ha : rowLookup ls.added l with _ | r
            · simp [rowLookup, show ¬ lang = l from hne]
            · simp
          exact ih'.2.trans h2
        · rw [processItem_update hi hl]
          have ih' := ih ⟨updateFirst ls.existing lang (normalizeData nf it.2), ls.added, ls.incomingLangs ++ [lang]⟩ hrest
          refine ⟨?_, ih'.2⟩
          exact ih'.1.trans (rowLookup_updateFirst_ne _ _ _ _ (fun e => hne e.symm))

/-! ## Reconciler lemmas -/

/-- The rows persisted by a non-empty dict call, as one expression. -/
def reconciledRows (rows : List TransRow) (nameField : String)
    (d : List (String × TransData)) : List TransRow :=
  let ls := processAll nameField ⟨rows, [], []⟩ d
  ls.existing.filter (fun r => decide (r.language ∈ ls.incomingLangs)) ++ ls.added

theorem save_translations_dict_eq (st : EntityState)
    (d : List (String × TransData)) (nf : String) (hd : d ≠ []) :
    save_translations st (.dict d) nf
      = ⟨reconciledRows st.rows nf d, reconciledRows st.rows nf d⟩ := by
  rcases d with _ | ⟨it, rest⟩
  · exact absurd rfl hd
  · rfl

theorem mem_recLangs {d : List (String × TransData)} {l : Lang} :
    l ∈ recLangs d ↔ ∃ it ∈ d, langOfString it.1 = some l := by
  simp [recLangs, List.mem_filterMap]

theorem recLangs_nodup {d : List (String × TransData)}
    (h : (d.map Prod.fst).Nodup) : (recLangs d).Nodup := by
  induction d with
  | nil => simp [recLangs]
  | cons it rest ih =>
      simp only [List.map_cons, List.nodup_cons] at h
      rcases hi : langOfString it.1 with _ | lang
      · simpa [recLangs, List.filterMap_cons, hi] using ih h.2
      · rw [show recLangs (it :: rest) = lang :: recLangs rest by
          simp [recLangs, List.filterMap_cons, hi]]
        refine List.nodup_cons.mpr ⟨?_, ih h.2⟩
        intro hc
        rcases mem_recLangs.mp hc with ⟨it', hit', he⟩
        exact h.1 (langOfString_inj hi he ▸ List.mem_map_of_mem Prod.fst hit')

/-- Central characterization of the reconciler: the entry `(k, dt)` of a
    non-duplicate incoming dict fully determines the persisted row for its
    language — updated in place when a row existed, freshly created from
    exactly the supplied field map otherwise. -/
theorem save_rowLookup_spec (st : EntityState)
    (d : List (String × TransData)) (nf k : String) (dt : TransData)
    (lang : Lang) (hkeys : (d.map Prod.fst).Nodup) (hmem : (k, dt) ∈ d)
    (hk : langOfString k = some lang) :
    rowLookup (save_translations st (.dict d) nf).rows lang
      = match rowLookup st.rows lang with
        | some r =>
            some { r with attrs := applyUpdates r.attrs (normalizeData nf dt) }
        | none => some ⟨lang, normalizeData nf dt⟩ := by
  have hd : d ≠ [] := List.ne_nil_of_mem hmem
  rw [save_translations_dict_eq st d nf hd]
  rcases List.append_of_mem hmem with ⟨d1, d2, rfl⟩
  have hk1 : k ∉ d1.map Prod.fst := by
    intro hc
    rw [List.map_append, List.map_cons] at hkeys
    exact (List.disjoint_of_nodup_append hkeys) hc (List.mem_cons_self _ _)
  have hk2 : k ∉ d2.map Prod.fst := by
    rw [List.map_append, List.map_cons] at hkeys
    have := (List.nodup_append.mp hkeys).2.1
    exact (List.nodup_cons.mp this).1
  have hd1 : ∀ it ∈ d1, langOfString it.1 ≠ some lang := by
    intro it hit hc
    exact hk1 (langOfString_inj hc hk ▸ List.mem_map_of_mem Prod.fst hit)
  have hd2 : ∀ it ∈ d2, langOfString it.1 ≠ some lang := by
    intro it hit hc
    exact hk2 (langOfString_inj hc hk ▸ List.mem_map_of_mem Prod.fst hit)
  set ls0 : LoopState := ⟨st.rows, [], []⟩ with hls0
  set ls1 := processAll nf ls0 d1 with hls1
  have hu1 := processAll_rowLookup_untouched nf ls0 d1 lang hd1
  have hlangmem : lang ∈ (processAll nf ls0 (d1 ++ (k, dt) :: d2)).incomingLangs := by
    rw [processAll_incomingLangs]
    refine List.mem_append_right _ (mem_recLangs.mpr ⟨(k, dt), ?_, hk⟩)
    exact List.mem_append_right _ (List.mem_cons_self _ _)
  have hexlangs1 : ls1.existing.map (fun r => r.language)
      = st.rows.map (fun r => r.language) := processAll_existing_langs nf ls0 d1
  unfold reconciledRows
  rw [processAll_append, processAll_cons]
  rcases hr0 : rowLookup st.rows lang with _ | r
  · -- no pre-existing row: the create branch fires
    have hnot : hasLang ls1.existing lang = false := by
      rw [@hasLang_congr _ st.rows _ hexlangs1]
      unfold hasLang
      rw [hr0]
      rfl
    rw [processItem_create hk hnot]
    set ls2 : LoopState :=
      ⟨ls1.existing, ls1.added ++ [⟨lang, normalizeData nf dt⟩], ls1.incomingLangs ++ [lang]⟩
      with hls2
    have hu2 := processAll_rowLookup_untouched nf ls2 d2 lang hd2
    rw [rowLookup_append]
    have hfil : rowLookup
        ((processAll nf ls2 d2).existing.filter
          (fun r => decide (r.language ∈ (processAll nf ls2 d2).incomingLangs))) lang
        = rowLookup (processAll nf ls2 d2).existing lang := by
      apply rowLookup_filter
      intro r _ hr
      have : lang ∈ (processAll nf ls2 d2).incomingLangs := by
        have he : processAll nf ls2 d2
            = processAll nf ls0 (d1 ++ (k, dt) :: d2) := by
          rw [processAll_append, processAll_cons, processItem_create hk hnot]
        rw [he]
        exact hlangmem
      simp [hr, this]
    rw [hfil, hu2.1]
    have : rowLookup ls2.existing lang = none := by
      have := hu1.1
      rw [hls0] at this
      simp only at this
      rw [show ls2.existing = ls1.existing from rfl, this, hr0]
    rw [this, hu2.2]
    have : rowLookup ls2.added lang = some ⟨lang, normalizeData nf dt⟩ := by
      rw [show ls2.added = ls1.added ++ [(⟨lang, normalizeData nf dt⟩ : TransRow)] from rfl]
      rw [rowLookup_append]
      have ha1 : rowLookup ls1.added lang = none := by
        have := hu1.2
        rw [hls0] at this
        simp only at this
        rw [this]
        rfl
      rw [ha1]
      simp [rowLookup]
    rw [this]
  · -- pre-existing row: the update branch fires
    have hyes : hasLang ls1.existing lang = true := by
      rw [@hasLang_congr _ st.rows _ hexlangs1]
      unfold hasLang
      rw [hr0]
      rfl
    rw [processItem_update hk hyes]
    set ls2 : LoopState :=
      ⟨updateFirst ls1.existing lang (normalizeData nf dt), ls1.added,
        ls1.incomingLangs ++ [lang]⟩ with hls2
    have hu2 := processAll_rowLookup_untouched nf ls2 d2 lang hd2
    rw [rowLookup_append]
    have hfil : rowLookup
        ((processAll nf ls2 d2).existing.filter
          (fun r => decide (r.language ∈ (processAll nf ls2 d2).incomingLangs))) lang
        = rowLookup (processAll nf ls2 d2).existing lang := by
      apply rowLookup_filter
      intro r _ hr
      have : lang ∈ (processAll nf ls2 d2).incomingLangs := by
        have he : processAll nf ls2 d2
            = processAll nf ls0 (d1 ++ (k, dt) :: d2) := by
          rw [processAll_append, processAll_cons, processItem_update hk hyes]
        rw [he]
        exact hlangmem
      simp [hr, this]
    rw [hfil, hu2.1]
    have hlk1 : rowLookup ls1.existing lang = some r := by
      have := hu1.1
      rw [hls0] at this
      simp only at this
      rw [this, hr0]
    have : rowLookup ls2.existing lang
        = some { r with attrs := applyUpdates r.attrs (normalizeData nf dt) } := by
      rw [show ls2.existing = updateFirst ls1.existing lang (normalizeData nf dt) from rfl]
      exact rowLookup_updateFirst_self _ hlk1
    rw [this]

theorem createdRows_map_language (rows : List TransRow) (nf : String)
    (d : List (String × TransData)) :
    (createdRows rows nf d).map (fun r => r.language)
      = (recLangs d).filter (fun l => !hasLang rows l) := by
  induction d with
  | nil => rfl
  | cons it rest ih =>
      rcases hi : langOfString it.1 with _ | lang
      · simp [createdRows, recLangs, List.filterMap_cons, hi] at ih ⊢
        exact ih
      · rcases hl : hasLang rows lang with _ | _
        · simp only [createdRows, recLangs, List.filterMap_cons, hi] at ih ⊢
          rw [List.filter_cons]
          simp [hl, createdRows, recLangs] at ih ⊢
          exact ih
        · simp only [createdRows, recLangs, List.filterMap_cons, hi] at ih ⊢
          rw [List.filter_cons]
          simp [hl, createdRows, recLangs] at ih ⊢
          exact ih

theorem mem_save_rows_language {st : EntityState}
    {d : List (String × TransData)} {nf : String} {r : TransRow}
    (hd : d ≠ []) (hr : r ∈ (save_translations st (.dict d) nf).rows) :
    r.language ∈ recLangs d := by
  rw [save_translations_dict_eq st d nf hd] at hr
  unfold reconciledRows at hr
  rcases List.mem_append.mp hr with h | h
  · have := List.of_mem_filter h
    rw [processAll_incomingLangs] at this
    simpa using this
  · rw [processAll_added] at h
    simp only [List.nil_append] at h
    have : r.language ∈ (createdRows st.rows nf d).map (fun r => r.language) :=
      List.mem_map_of_mem _ h
    rw [createdRows_map_language] at this
    exact List.mem_of_mem_filter this

theorem map_language_filter (rows : List TransRow) (L : List Lang) :
    (rows.filter (fun r => decide (r.language ∈ L))).map (fun r => r.language)
      = (rows.map (fun r => r.language)).filter (fun l => decide (l ∈ L)) := by
  induction rows with
  | nil => rfl
  | cons r0 rest ih =>
      by_cases h : r0.language ∈ L
      · simp [List.filter_cons, h, ih]
      · simp [List.filter_cons, h, ih]

theorem save_rows_map_language (st : EntityState)
    (d : List (String × TransData)) (nf : String) (hd : d ≠ []) :
    (save_translations st (.dict d) nf).rows.map (fun r => r.language)
      = (st.rows.map (fun r => r.language)).filter (fun l => decide (l ∈ recLangs d))
        ++ (recLangs d).filter (fun l => !hasLang st.rows l) := by
  rw [save_translations_dict_eq st d nf hd]
  unfold reconciledRows
  simp only [List.map_append]
  congr 1
  · rw [processAll_incomingLangs]
    simp only [List.nil_append]
    rw [map_language_filter, processAll_existing_langs]
  · rw [processAll_added]
    simp only [List.nil_append]
    exact createdRows_map_language st.rows nf d

theorem save_langsNodup {st : EntityState} {d : List (String × TransData)}
    {nf : String} (hnd : langsNodup st.rows)
    (hkeys : (d.map Prod.fst).Nodup) :
    langsNodup (save_translations st (.dict d) nf).rows := by
  rcases d with _ | ⟨it, rest⟩
  · exact hnd
  · unfold langsNodup at hnd ⊢
    rw [save_rows_map_language st (it :: rest) nf (by simp)]
    refine List.Nodup.append ?_ ?_ ?_
    · exact hnd.filter _
    · exact (recLangs_nodup hkeys).filter _
    · intro l hl hl'
      have h1 : l ∈ st.rows.map (fun r => r.language) := List.mem_of_mem_filter hl
      have h2 := List.of_mem_filter hl'
      rw [show hasLang st.rows l = true from hasLang_iff.mpr h1] at h2
      simp at h2

/-! ## Projector lemmas -/

theorem tCols_map_fst (ts : List String) (r : TransRow) :
    (tCols ts r).map Prod.fst = ts.filter (fun c => !excludedKeys.contains c) := by
  unfold tCols
  rw [List.map_map]
  exact List.map_id _

theorem alookup_tCols (ts : List String) (r : TransRow) (f : String)
    (hf : f ∈ ts.filter (fun c => !excludedKeys.contains c)) :
    alookup (tCols ts r) f = some (getAttr r.attrs f) :=
  alookup_map_keys (fun c => getAttr r.attrs c) _ f hf

/-- The one-step insertion of `translationsMap`. -/
def tmapStep (ts : List String) (m : List (String × Attrs)) (r : TransRow) :
    List (String × Attrs) :=
  dictInsert m r.language.value (tCols ts r)

theorem translationsMap_eq_foldl (ts : List String) (rows : List TransRow) :
    translationsMap ts rows = rows.foldl (tmapStep ts) [] := rfl

theorem alookup_tmap_foldl_absent (ts : List String) (rows : List TransRow)
    (acc : List (String × Attrs)) (s : String)
    (h : ∀ r ∈ rows, r.language.value ≠ s) :
    alookup (rows.foldl (tmapStep ts) acc) s = alookup acc s := by
  induction rows generalizing acc with
  | nil => rfl
  | cons r0 rest ih =>
      rw [List.foldl_cons,
        ih _ (fun r hr => h r (List.mem_cons_of_mem _ hr))]
      exact alookup_dictInsert_ne _ _ _ _
        (fun e => h r0 (List.mem_cons_self r0 rest) e.symm)

theorem alookup_tmap_foldl_present (ts : List String) (rows : List TransRow)
    (acc : List (String × Attrs)) (l : Lang) (r : TransRow)
    (hnd : langsNodup rows) (h : rowLookup rows l = some r) :
    alookup (rows.foldl (tmapStep ts) acc) l.value = some (tCols ts r) := by
  induction rows generalizing acc with
  | nil => simp [rowLookup] at h
  | cons r0 rest ih =>
      unfold langsNodup at hnd
      simp only [List.map_cons, List.nodup_cons] at hnd
      by_cases h0 : r0.language = l
      · simp only [rowLookup, if_pos h0, Option.some.injEq] at h
        subst h
        rw [List.foldl_cons]
        have habs : ∀ r' ∈ rest, r'.language.value ≠ l.value := by
          intro r' hr' hc
          have he : r'.language = l := Lang.value_inj hc
          have : r0.language ∈ rest.map (fun r => r.language) := by
            rw [h0, ← he]
            exact List.mem_map_of_mem (fun r => r.language) hr'
          exact hnd.1 this
        rw [alookup_tmap_foldl_absent ts rest _ l.value habs]
        unfold tmapStep
        rw [h0, alookup_dictInsert_self]
      · simp only [rowLookup, if_neg h0] at h
        rw [List.foldl_cons]
        exact ih _ hnd.2 h

theorem alookup_translationsMap_absent (ts : List String)
    (rows : List TransRow) (s : String)
    (h : ∀ r ∈ rows, r.language.value ≠ s) :
    alookup (translationsMap ts rows) s = none := by
  rw [translationsMap_eq_foldl, alookup_tmap_foldl_absent ts rows [] s h]
  rfl

theorem alookup_translationsMap_present (ts : List String)
    (rows : List TransRow) (l : Lang) (r : TransRow)
    (hnd : langsNodup rows) (h : rowLookup rows l = some r) :
    alookup (translationsMap ts rows) l.value = some (tCols ts r) :=
  alookup_tmap_foldl_present ts rows [] l r hnd h

/-- Every translation map of a non-empty row list starts with some
    language's `t_cols`, so `translatable_keys` is the filtered column
    list. -/
theorem translationsMap_head_shape (ts : List String) (rows : List TransRow)
    (hne : rows ≠ []) :
    ∃ s r rest, translationsMap ts rows = (s, tCols ts r) :: rest := by
  have hstep : ∀ (acc : List (String × Attrs)) (r' : TransRow),
      (∃ s r rest, acc = (s, tCols ts r) :: rest) →
      ∃ s r rest, tmapStep ts acc r' = (s, tCols ts r) :: rest := by
    rintro acc r' ⟨s, r, rest, rfl⟩
    unfold tmapStep dictInsert
    by_cases h : s = r'.language.value
    · rw [if_pos h]
      exact ⟨r'.language.value, r', rest, rfl⟩
    · rw [if_neg h]
      exact ⟨s, r, _, rfl⟩
  have hfold : ∀ (rows' : List TransRow) (acc : List (String × Attrs)),
      (∃ s r rest, acc = (s, tCols ts r) :: rest) →
      ∃ s r rest, rows'.foldl (tmapStep ts) acc = (s, tCols ts r) :: rest := by
    intro rows'
    induction rows' with
    | nil => intro acc h; exact h
    | cons r0 rest' ih =>
        intro acc h
        rw [List.foldl_cons]
        exact ih _ (hstep acc r0 h)
  rcases rows with _ | ⟨r0, rest⟩
  · exact absurd rfl hne
  · rw [translationsMap_eq_foldl, List.foldl_cons]
    exact hfold rest _ ⟨r0.language.value, r0, [], rfl⟩

/-- The per-field language map built by the all-languages branch. -/
def nestedLangMap (tmap : List (String × Attrs)) (key : String) :
    List (String × Option String) :=
  allLangCodes.map (fun lc =>
    (lc,
      match alookup tmap lc with
      | some tcols =>
          match alookup tcols key with
          | some v => v
          | none => some ""
      | none => some ""))

theorem alookup_projectNested (tmap : List (String × Attrs)) (data : ProjData)
    (f : String) (s0 : String) (r0 : TransRow) (ts : List String)
    (rest0 : List (String × Attrs))
    (hshape : tmap = (s0, tCols ts r0) :: rest0)
    (hf : f ∈ ts.filter (fun c => !excludedKeys.contains c)) :
    alookup (projectNested tmap data) f
      = some (ProjValue.langMap (nestedLangMap tmap f)) := by
  unfold projectNested
  rw [hshape]
  simp only
  have hkeys : (tCols ts r0).map Prod.fst
      = ts.filter (fun c => !excludedKeys.contains c) := tCols_map_fst ts r0
  rw [show ((s0, tCols ts r0) :: rest0 : List (String × Attrs))
      = tmap from hshape.symm]
  exact alookup_foldl_keys_mem
    (fun key => ProjValue.langMap (nestedLangMap tmap key)) _ data f
    (hkeys ▸ hf)

theorem alookup_nestedLangMap (tmap : List (String × Attrs)) (key : String)
    (c : String) (hc : c ∈ allLangCodes) :
    alookup (nestedLangMap tmap key) c
      = some (match alookup tmap c with
              | some tcols =>
                  match alookup tcols key with
                  | some v => v
                  | none => some ""
              | none => some "") := by
  unfold nestedLangMap
  exact alookup_map_keys _ allLangCodes c hc

theorem apply_language_filter_none (ts : List String) (e : Entity) :
    apply_language_filter ts e none
      = projectNested (translationsMap ts e.translations)
          (e.base.map (fun kv => (kv.1, ProjValue.scalar kv.2))) := rfl

theorem apply_language_filter_some_absent (ts : List String) (e : Entity)
    (s : String) (h : alookup (translationsMap ts e.translations) s = none) :
    apply_language_filter ts e (some s) = apply_language_filter ts e none := by
  unfold apply_language_filter
  by_cases hs : s = ""
  · simp [hs]
  · simp only [if_neg hs, h]

theorem apply_language_filter_some_present (ts : List String) (e : Entity)
    (s : String) (tc : Attrs) (hs : s ≠ "")
    (h : alookup (translationsMap ts e.translations) s = some tc) :
    apply_language_filter ts e (some s)
      = projectFlat (e.base.map (fun kv => (kv.1, ProjValue.scalar kv.2))) s tc := by
  unfold apply_language_filter
  simp only [if_neg hs, h]

/-! ## Further fixpoint lemmas -/

theorem processAll_all_skip {nf : String} {ls : LoopState}
    {d : List (String × TransData)}
    (h : ∀ it ∈ d, langOfString it.1 = none) : processAll nf ls d = ls := by
  induction d with
  | nil => rfl
  | cons it rest ih =>
      rw [processAll_cons, processItem_skip (h it (List.mem_cons_self it rest))]
      exact ih (fun it' h' => h it' (List.mem_cons_of_mem _ h'))

theorem processAll_fixpoint (nf : String) (rows a : List TransRow)
    (il : List Lang) (d : List (String × TransData))
    (h : ∀ k dt lang, (k, dt) ∈ d → langOfString k = some lang →
        hasLang rows lang = true
          ∧ updateFirst rows lang (normalizeData nf dt) = rows) :
    processAll nf ⟨rows, a, il⟩ d = ⟨rows, a, il ++ recLangs d⟩ := by
  induction d generalizing il with
  | nil => simp [processAll_nil, recLangs]
  | cons it rest ih =>
      have hrest : ∀ k dt lang, (k, dt) ∈ rest → langOfString k = some lang →
          hasLang rows lang = true
            ∧ updateFirst rows lang (normalizeData nf dt) = rows :=
        fun k dt lang hm hk => h k dt lang (List.mem_cons_of_mem _ hm) hk
      rw [processAll_cons]
      rcases it with ⟨k, dt⟩
      rcases hi : langOfString k with _ | lang
      · rw [processItem_skip hi, ih il hrest]
        simp [recLangs, List.filterMap_cons, hi]
      · rcases h k dt lang (List.mem_cons_self _ _) hi with ⟨h1, h2⟩
        rw [processItem_update hi h1]
        simp only [h2]
        rw [ih (il ++ [lang]) hrest]
        simp [recLangs, List.filterMap_cons, hi]

theorem filter_mem_singleton {xs : List Lang} {a : Lang} (hnd : xs.Nodup)
    (ha : a ∈ xs) : xs.filter (fun x => decide (x ∈ [a])) = [a] := by
  induction xs with
  | nil => simp at ha
  | cons x rest ih =>
      rcases List.nodup_cons.mp hnd with ⟨hx, hrest⟩
      by_cases h : x = a
      · subst h
        rw [List.filter_cons, if_pos (by simp)]
        have : rest.filter (fun x' => decide (x' ∈ [x])) = [] := by
          rw [List.filter_eq_nil_iff]
          intro x' hx'
          simp only [List.mem_singleton, decide_eq_true_eq]
          intro he
          exact hx (he ▸ hx')
        rw [this]
      · have ha' : a ∈ rest := by
          rcases List.mem_cons.mp ha with he | he
          · exact absurd he.symm h
          · exact he
        rw [List.filter_cons, if_neg (by simp [h]), ih hrest ha']

/-! ## Claims -/

/-- C2, counterexample: an entity with one existing `en` translation row,
    reconciled with the empty map, keeps its row — the early falsy-input
    return of line 71 fires before any deletion, so the row count is not
    zero as the claim requires. -/
theorem c2_counterexample :
    (save_translations
        ⟨[⟨Lang.en, [("name", some "A")]⟩], [⟨Lang.en, [("name", some "A")]⟩]⟩
        (.dict []) "name").rows ≠ [] := by
  decide

/-- C2, amended: calling the Reconciler with an empty map is a complete
    no-op — the falsy-input guard returns immediately, deleting nothing and
    leaving every existing translation row (and the committed state)
    untouched. -/
theorem c2_amended (st : EntityState) (nf : String) :
    save_translations st (.dict []) nf = st := rfl

/-- C3, counterexample: the entity has a sibling `ru` row with
    `name = "X"`; reconciling with an empty field map for the new language
    `en` creates the `en` row with an empty attribute set, whose `name`
    reads null — not `"X"` copied from the sibling as the claim states. -/
theorem c3_counterexample :
    (save_translations ⟨[⟨Lang.ru, [("name", some "X")]⟩], []⟩
        (.dict [("en", .map []), ("ru", .map [("name", some "X")])]) "name").rows
      = [⟨Lang.ru, [("name", some "X")]⟩, ⟨Lang.en, []⟩]
    ∧ getAttr [] "name" ≠ some "X" := by
  constructor
  · decide
  · decide

/-- C3, amended: when the Reconciler processes a language with no existing
    row, the created row carries exactly the supplied (normalized) field
    map; fields absent from the incoming map stay unset (null) — no value
    is copied over from any sibling language's row. -/
theorem c3_amended (st : EntityState) (d : List (String × TransData))
    (nf k : String) (dt : TransData) (lang : Lang)
    (hkeys : (d.map Prod.fst).Nodup) (hmem : (k, dt) ∈ d)
    (hk : langOfString k = some lang)
    (hnew : rowLookup st.rows lang = none) :
    rowLookup (save_translations st (.dict d) nf).rows lang
      = some ⟨lang, normalizeData nf dt⟩ := by
  rw [save_rowLookup_spec st d nf k dt lang hkeys hmem hk, hnew]

/-- C3, witness: with an existing `ru` row holding `name = "X"`, creating
    `en` from the empty field map yields an `en` row with no attributes. -/
theorem c3_amended_witness :
    rowLookup (save_translations ⟨[⟨Lang.ru, [("name", some "X")]⟩], []⟩
        (.dict [("en", .map []), ("ru", .map [("name", some "X")])]) "name").rows
        Lang.en
      = some ⟨Lang.en, []⟩ :=
  c3_amended ⟨[⟨Lang.ru, [("name", some "X")]⟩], []⟩
    [("en", .map []), ("ru", .map [("name", some "X")])] "name" "en"
    (.map []) Lang.en (by decide) (by decide) (by decide) (by decide)

/-- C4, counterexample: a single call to the Reconciler on a fresh session
    changes the committed snapshot — `db.commit()` on line 123 runs inside
    `save_translations` itself, so the function does not stay within the
    caller's transaction as the claim states. -/
theorem c4_counterexample :
    (save_translations ⟨[], []⟩
        (.dict [("en", .map [("name", some "x")])]) "name").committed
      ≠ (⟨[], []⟩ : EntityState).committed := by
  decide

/-- C4, amended: `save_translations` commits by itself — every call whose
    input is a non-empty dict ends with `db.commit()`, publishing the
    session's translation rows.  Consequently, in `create_product` each
    translation group is already committed when the next group is saved,
    and a failure in a later step does not undo the earlier groups. -/
theorem c4_amended (st : EntityState) (d : List (String × TransData))
    (nf : String) (hd : d ≠ []) :
    (save_translations st (.dict d) nf).committed
      = (save_translations st (.dict d) nf).rows := by
  rw [save_translations_dict_eq st d nf hd]

/-- C4, witness: the commit equation at a concrete non-empty call. -/
theorem c4_amended_witness :
    (save_translations ⟨[], []⟩
        (.dict [("en", .map [("name", some "x")])]) "name").committed
      = (save_translations ⟨[], []⟩
          (.dict [("en", .map [("name", some "x")])]) "name").rows :=
  c4_amended ⟨[], []⟩ [("en", .map [("name", some "x")])] "name" (by decide)

/-- C8: a `{"fr": {"name": "x"}}` call is handled without error (the
    embedding is a total function: the `ValueError` of an unrecognized code
    is caught and turned into `continue`) and persists no new translation
    row — the resulting rows are a sublist of the pre-existing ones; indeed
    the loop leaves the state completely unchanged on the `fr` entry. -/
theorem c8_unknown_language_dropped :
    (∀ (st : EntityState) (nf : String) (dt : TransData),
        (save_translations st (.dict [("fr", dt)]) nf).rows.Sublist st.rows)
    ∧ (∀ (nf : String) (ls : LoopState) (dt : TransData),
        processItem nf ls ("fr", dt) = ls) := by
  have hfr : langOfString "fr" = none := by decide
  constructor
  · intro st nf dt
    rw [save_translations_dict_eq st _ nf (by simp)]
    unfold reconciledRows
    rw [show processAll nf ⟨st.rows, [], []⟩ [("fr", dt)] = ⟨st.rows, [], []⟩ from
      processAll_all_skip (by simpa using hfr)]
    simp
  · intro nf ls dt
    exact processItem_skip hfr

/-- C10: a non-empty incoming map all of whose keys are unrecognized marks
    no language as seen, so the delete-unseen pass removes every existing
    translation row and none is created: the persisted state is empty. -/
theorem c10_unrecognized_keys_delete_all (st : EntityState)
    (d : List (String × TransData)) (nf : String) (hd : d ≠ [])
    (hall : ∀ it ∈ d, langOfString it.1 = none) :
    (save_translations st (.dict d) nf).rows = []
      ∧ (save_translations st (.dict d) nf).committed = [] := by
  rw [save_translations_dict_eq st d nf hd]
  unfold reconciledRows
  rw [processAll_all_skip hall]
  simp

/-- C10, witness: three existing rows, incoming `{"fr": {"name": "x"}}`:
    both the live rows and the committed rows end empty. -/
theorem c10_witness :
    (save_translations
        ⟨[⟨Lang.en, [("name", some "E")]⟩, ⟨Lang.ru, [("name", some "R")]⟩,
          ⟨Lang.hy, [("name", some "H")]⟩], []⟩
        (.dict [("fr", .map [("name", some "x")])]) "name").rows = []
    ∧ (save_translations
        ⟨[⟨Lang.en, [("name", some "E")]⟩, ⟨Lang.ru, [("name", some "R")]⟩,
          ⟨Lang.hy, [("name", some "H")]⟩], []⟩
        (.dict [("fr", .map [("name", some "x")])]) "name").committed = [] :=
  c10_unrecognized_keys_delete_all _ _ "name" (by decide)
    (by intro it hit; rcases List.mem_singleton.mp hit with rfl; decide)

/-- C6: every persisted row's language comes from a recognized key of the
    incoming map (so rows whose language was omitted are deleted); in the
    claim's scenario — rows for en, ru and hy, incoming map with the single
    key `"en"` — exactly one row remains and it is the `en` row. -/
theorem c6_deletion_by_omission :
    (∀ (st : EntityState) (d : List (String × TransData)) (nf : String)
        (r : TransRow), d ≠ [] →
        r ∈ (save_translations st (.dict d) nf).rows → r.language ∈ recLangs d)
    ∧ (∀ (st : EntityState) (dt : TransData) (nf : String),
        langsNodup st.rows → hasLang st.rows Lang.en = true →
        hasLang st.rows Lang.ru = true → hasLang st.rows Lang.hy = true →
        (save_translations st (.dict [("en", dt)]) nf).rows.map (fun r => r.language)
          = [Lang.en]) := by
  constructor
  · intro st d nf r hd hr
    exact mem_save_rows_language hd hr
  · intro st dt nf hnd hen _ _
    rw [save_rows_map_language st [("en", dt)] nf (by simp)]
    have hrec : recLangs [("en", dt)] = [Lang.en] := by
      simp [recLangs, List.filterMap_cons,
        show langOfString "en" = some Lang.en from rfl]
    rw [hrec]
    have h2 : [Lang.en].filter (fun l => !hasLang st.rows l) = [] := by
      simp [hen]
    rw [h2, List.append_nil]
    unfold langsNodup at hnd
    exact filter_mem_singleton hnd (hasLang_iff.mp hen)

/-- C6, witness: rows for en, ru, hy reconciled with a single-`en` map
    project to exactly one remaining language, `en`. -/
theorem c6_witness :
    (save_translations
        ⟨[⟨Lang.en, [("name", some "E")]⟩, ⟨Lang.ru, [("name", some "R")]⟩,
          ⟨Lang.hy, [("name", some "H")]⟩], []⟩
        (.dict [("en", .map [("name", some "E2")])]) "name").rows.map
        (fun r => r.language)
      = [Lang.en] :=
  c6_deletion_by_omission.2
    ⟨[⟨Lang.en, [("name", some "E")]⟩, ⟨Lang.ru, [("name", some "R")]⟩,
      ⟨Lang.hy, [("name", some "H")]⟩], []⟩
    (.map [("name", some "E2")]) "name"
    (by decide) (by decide) (by decide) (by decide)

/-- C7: the Reconciler is idempotent — a second call with the same
    (duplicate-free, as any Python dict is) incoming map updates every row
    with the values it already holds, creates nothing and deletes nothing,
    so the entire persisted state (rows and committed snapshot) is
    unchanged. -/
theorem c7_idempotent (st : EntityState) (d : List (String × TransData))
    (nf : String) (hnd : langsNodup st.rows)
    (hkeys : (d.map Prod.fst).Nodup)
    (hdata : ∀ it ∈ d, ((normalizeData nf it.2).map Prod.fst).Nodup) :
    save_translations (save_translations st (.dict d) nf) (.dict d) nf
      = save_translations st (.dict d) nf := by
  by_cases hd : d = []
  · subst hd
    rfl
  · have hE := save_translations_dict_eq st d nf hd
    have hfix : ∀ (k : String) (dt : TransData) (lang : Lang), (k, dt) ∈ d →
        langOfString k = some lang →
        hasLang (reconciledRows st.rows nf d) lang = true
          ∧ updateFirst (reconciledRows st.rows nf d) lang (normalizeData nf dt)
              = reconciledRows st.rows nf d := by
      intro k dt lang hmem hk
      have hspec := save_rowLookup_spec st d nf k dt lang hkeys hmem hk
      rw [hE] at hspec
      have hmnd : ((normalizeData nf dt).map Prod.fst).Nodup := hdata (k, dt) hmem
      rcases hr0 : rowLookup st.rows lang with _ | r
      · rw [hr0] at hspec
        refine ⟨by unfold hasLang; rw [hspec]; rfl, ?_⟩
        apply updateFirst_eq_self hspec
        show applyUpdates (normalizeData nf dt) (normalizeData nf dt)
          = normalizeData nf dt
        apply applyUpdates_eq_self
        intro kv hkv
        exact alookup_of_mem_nodup (by simpa using hkv) hmnd
      · rw [hr0] at hspec
        refine ⟨by unfold hasLang; rw [hspec]; rfl, ?_⟩
        apply updateFirst_eq_self hspec
        show applyUpdates (applyUpdates r.attrs (normalizeData nf dt))
            (normalizeData nf dt)
          = applyUpdates r.attrs (normalizeData nf dt)
        apply applyUpdates_eq_self
        intro kv hkv
        exact alookup_applyUpdates_mem hmnd (by simpa using hkv)
    have hall : ∀ r ∈ reconciledRows st.rows nf d,
        decide (r.language ∈ recLangs d) = true := by
      intro r hr
      have : r ∈ (save_translations st (.dict d) nf).rows := by
        rw [hE]
        exact hr
      simpa using mem_save_rows_language hd this
    have hfinal : ∀ R : List TransRow,
        (∀ (k : String) (dt : TransData) (lang : Lang), (k, dt) ∈ d →
          langOfString k = some lang →
          hasLang R lang = true
            ∧ updateFirst R lang (normalizeData nf dt) = R) →
        (∀ r ∈ R, decide (r.language ∈ recLangs d) = true) →
        reconciledRows R nf d = R := by
      intro R hfixR hallR
      unfold reconciledRows
      rw [processAll_fixpoint nf R [] [] d hfixR]
      simp only [List.nil_append, List.append_nil]
      exact List.filter_eq_self.mpr hallR
    rw [hE, save_translations_dict_eq _ d nf hd]
    show (⟨reconciledRows (reconciledRows st.rows nf d) nf d,
            reconciledRows (reconciledRows st.rows nf d) nf d⟩ : EntityState)
        = ⟨reconciledRows st.rows nf d, reconciledRows st.rows nf d⟩
    rw [hfinal _ hfix hall]

/-- C7, witness: reconciling twice with the same single-language map at a
    concrete state equals reconciling once. -/
theorem c7_witness :
    save_translations
        (save_translations ⟨[⟨Lang.ru, [("name", some "X")]⟩], []⟩
          (.dict [("en", .map [("name", some "E")])]) "name")
        (.dict [("en", .map [("name", some "E")])]) "name"
      = save_translations ⟨[⟨Lang.ru, [("name", some "X")]⟩], []⟩
          (.dict [("en", .map [("name", some "E")])]) "name" :=
  c7_idempotent ⟨[⟨Lang.ru, [("name", some "X")]⟩], []⟩
    [("en", .map [("name", some "E")])] "name"
    (by decide) (by decide)
    (by intro it hit; rcases List.mem_singleton.mp hit with rfl; decide)

/-- C9: requesting a language with no translation row returns exactly the
    all-languages nested form (no error, no empty scalars); requesting a
    present language overwrites the base attributes with that row's column
    values and tags the output with `language = requested_lang`. -/
theorem c9_requested_language :
    (∀ (ts : List String) (e : Entity) (s : String),
        (∀ r ∈ e.translations, r.language.value ≠ s) →
        apply_language_filter ts e (some s) = apply_language_filter ts e none)
    ∧ (∀ (ts : List String) (e : Entity) (l : Lang) (r : TransRow),
        ts.Nodup → langsNodup e.translations →
        rowLookup e.translations l = some r →
        alookup (apply_language_filter ts e (some l.value)) "language"
          = some (ProjValue.scalar (some l.value))
        ∧ ∀ (f : String) (v : Option String),
            alookup (tCols ts r) f = some v →
            alookup (apply_language_filter ts e (some l.value)) f
              = some (ProjValue.scalar v)) := by
  constructor
  · intro ts e s habs
    exact apply_language_filter_some_absent ts e s
      (alookup_translationsMap_absent ts e.translations s habs)
  · intro ts e l r hts hnd hlk
    have hp := alookup_translationsMap_present ts e.translations l r hnd hlk
    rw [apply_language_filter_some_present ts e l.value (tCols ts r)
      (Lang.value_ne_empty l) hp]
    unfold projectFlat
    constructor
    · exact alookup_dictInsert_self _ _ _
    · intro f v hfv
      have hfmem := mem_of_alookup_eq_some hfv
      have hfkeys : f ∈ (tCols ts r).map Prod.fst :=
        List.mem_map_of_mem Prod.fst hfmem
      rw [tCols_map_fst] at hfkeys
      have hfe : f ∉ excludedKeys := by
        have := List.of_mem_filter hfkeys
        simpa using this
      have hflang : f ≠ "language" :=
        fun e' => hfe (e' ▸ (by decide : "language" ∈ excludedKeys))
      rw [alookup_dictInsert_ne _ _ _ _ hflang]
      refine alookup_foldl_pairs_mem ProjValue.scalar _ _ f v ?_ hfmem
      rw [tCols_map_fst]
      exact hts.filter _

/-- C9, witness: requesting `hy` on an entity that only has an `en` row
    yields the same output as requesting no language at all. -/
theorem c9_witness :
    apply_language_filter productSchema
        ⟨[("id", some "1")], [⟨Lang.en, [("name", some "Dog")]⟩]⟩ (some "hy")
      = apply_language_filter productSchema
          ⟨[("id", some "1")], [⟨Lang.en, [("name", some "Dog")]⟩]⟩ none :=
  c9_requested_language.1 productSchema
    ⟨[("id", some "1")], [⟨Lang.en, [("name", some "Dog")]⟩]⟩ "hy"
    (by intro r hr; rcases List.mem_singleton.mp hr with rfl; decide)

/-- C5, counterexample: the entity has an `en` translation row that stores
    no `description`; the all-languages projection then carries `null`
    (Python `None`) for `description.en`, not the empty string the claim
    requires for absent data: the `.get(key, "")` default only applies when
    the whole language row is missing, and `en`'s entry is `None` here. -/
theorem c5_counterexample :
    alookup (apply_language_filter productSchema
        ⟨[("id", some "1")], [⟨Lang.en, [("name", some "Dog")]⟩]⟩ none)
        "description"
      = some (ProjValue.langMap [("en", none), ("ru", some ""), ("hy", some "")])
    ∧ (none : Option String) ≠ some "" := by
  constructor
  · decide
  · decide

/-- C5, amended: with at least one translation row, the nested projection
    attaches, for each translatable column, an entry for all three language
    codes; a language with no row at all reads as the empty string, while a
    language whose row exists reads the stored attribute value as-is — in
    particular `null` (not `""`) when the row stores no value for the
    field. -/
theorem c5_amended (tschema : List String) (e : Entity) (f : String)
    (hnd : langsNodup e.translations) (hne : e.translations ≠ [])
    (hf : f ∈ tschema) (hfe : f ∉ excludedKeys) :
    ∃ lm, alookup (apply_language_filter tschema e none) f
        = some (ProjValue.langMap lm)
      ∧ (∀ c ∈ allLangCodes, ∃ w, alookup lm c = some w)
      ∧ (∀ c ∈ allLangCodes, (∀ r ∈ e.translations, r.language.value ≠ c) →
          alookup lm c = some (some ""))
      ∧ (∀ (l : Lang) (r : TransRow), rowLookup e.translations l = some r →
          alookup lm l.value = some (getAttr r.attrs f)) := by
  obtain ⟨s0, r0, rest0, hshape⟩ :=
    translationsMap_head_shape tschema e.translations hne
  have hf' : f ∈ tschema.filter (fun c => !excludedKeys.contains c) :=
    List.mem_filter.mpr ⟨hf, by simpa using hfe⟩
  refine ⟨nestedLangMap (translationsMap tschema e.translations) f,
    ?_, ?_, ?_, ?_⟩
  · rw [apply_language_filter_none]
    exact alookup_projectNested _ _ f s0 r0 tschema rest0 hshape hf'
  · intro c hc
    exact ⟨_, alookup_nestedLangMap _ f c hc⟩
  · intro c hc habs
    rw [alookup_nestedLangMap _ f c hc,
      alookup_translationsMap_absent tschema e.translations c habs]
  · intro l r hlr
    rw [alookup_nestedLangMap _ f l.value (Lang.value_mem_allLangCodes l),
      alookup_translationsMap_present tschema e.translations l r hnd hlr]
    show some (match alookup (tCols tschema r) f with
        | some v => v
        | none => some "") = some (getAttr r.attrs f)
    rw [alookup_tCols tschema r f hf']

/-- C5, witness: an entity with one `en` row; the `name` column gets
    entries for en, ru and hy, with `""` on the rowless languages and the
    stored value on `en`. -/
theorem c5_amended_witness :
    ∃ lm, alookup (apply_language_filter productSchema
        ⟨[("id", some "1")], [⟨Lang.en, [("name", some "Dog")]⟩]⟩ none) "name"
        = some (ProjValue.langMap lm)
      ∧ (∀ c ∈ allLangCodes, ∃ w, alookup lm c = some w)
      ∧ (∀ c ∈ allLangCodes,
          (∀ r ∈ [(⟨Lang.en, [("name", some "Dog")]⟩ : TransRow)],
            r.language.value ≠ c) →
          alookup lm c = some (some ""))
      ∧ (∀ (l : Lang) (r : TransRow),
          rowLookup [⟨Lang.en, [("name", some "Dog")]⟩] l = some r →
          alookup lm l.value = some (getAttr r.attrs "name")) :=
  c5_amended productSchema
    ⟨[("id", some "1")], [⟨Lang.en, [("name", some "Dog")]⟩]⟩ "name"
    (by decide) (by decide) (by decide) (by decide)

/-- C1: round trip — reconciling an entity with a well-formed language map
    (duplicate-free keys, each data a duplicate-free field map over
    non-excluded schema columns) and then projecting with `lang = None`
    reads back, for each recognized language of the map and each field
    supplied for it, exactly the supplied value in that field's
    language-map entry. -/
theorem c1_round_trip (tschema : List String)
    (base : List (String × Option String)) (st : EntityState)
    (d : List (String × TransData)) (nf k : String) (dt : TransData)
    (lang : Lang) (m : Attrs) (f : String) (v : String)
    (hnd : langsNodup st.rows)
    (hkeys : (d.map Prod.fst).Nodup)
    (hmem : (k, dt) ∈ d)
    (hk : langOfString k = some lang)
    (hdt : dt = TransData.map m)
    (hm : (m.map Prod.fst).Nodup)
    (hfv : (f, some v) ∈ m)
    (hf : f ∈ tschema) (hfe : f ∉ excludedKeys) :
    ∃ lm, alookup
        (apply_language_filter tschema
          ⟨base, (save_translations st (.dict d) nf).rows⟩ none) f
      = some (ProjValue.langMap lm)
      ∧ alookup lm lang.value = some (some v) := by
  subst hdt
  have hspec := save_rowLookup_spec st d nf k (TransData.map m) lang hkeys hmem hk
  set rows1 := (save_translations st (.dict d) nf).rows with hrows1
  have hrow : ∃ r1, rowLookup rows1 lang = some r1
      ∧ getAttr r1.attrs f = some v := by
    rcases hr0 : rowLookup st.rows lang with _ | r
    · rw [hr0] at hspec
      refine ⟨⟨lang, normalizeData nf (TransData.map m)⟩, hspec, ?_⟩
      show getAttr m f = some v
      unfold getAttr
      rw [alookup_of_mem_nodup hfv hm]
    · rw [hr0] at hspec
      refine ⟨_, hspec, ?_⟩
      show getAttr (applyUpdates r.attrs (normalizeData nf (TransData.map m))) f
        = some v
      unfold getAttr
      rw [show normalizeData nf (TransData.map m) = m from rfl,
        alookup_applyUpdates_mem hm hfv]
  obtain ⟨r1, hr1, hv1⟩ := hrow
  have hnd1 : langsNodup rows1 := save_langsNodup hnd hkeys
  have hne1 : rows1 ≠ [] := by
    intro hc
    rw [hc] at hr1
    simp [rowLookup] at hr1
  obtain ⟨s0, r0, rest0, hshape⟩ :=
    translationsMap_head_shape tschema rows1 hne1
  have hf' : f ∈ tschema.filter (fun c => !excludedKeys.contains c) :=
    List.mem_filter.mpr ⟨hf, by simpa using hfe⟩
  refine ⟨nestedLangMap (translationsMap tschema rows1) f, ?_, ?_⟩
  · rw [apply_language_filter_none]
    exact alookup_projectNested _ _ f s0 r0 tschema rest0 hshape hf'
  · rw [alookup_nestedLangMap _ f lang.value (Lang.value_mem_allLangCodes lang),
      alookup_translationsMap_present tschema rows1 lang r1 hnd1 hr1]
    show some (match alookup (tCols tschema r1) f with
        | some w => w
        | none => some "") = some (some v)
    rw [alookup_tCols tschema r1 f hf', hv1]

/-- C1, witness: creating `{"en": {"name": "Food"}}` on a fresh entity and
    projecting with no language yields `name.en = "Food"`. -/
theorem c1_witness :
    ∃ lm, alookup (apply_language_filter productSchema
        ⟨[("id", some "1")],
          (save_translations ⟨[], []⟩
            (.dict [("en", .map [("name", some "Food")])]) "name").rows⟩ none)
        "name"
      = some (ProjValue.langMap lm)
      ∧ alookup lm Lang.en.value = some (some "Food") :=
  c1_round_trip productSchema [("id", some "1")] ⟨[], []⟩
    [("en", .map [("name", some "Food")])] "name" "en"
    (.map [("name", some "Food")]) Lang.en [("name", some "Food")] "name" "Food"
    (by decide) (by decide) (by decide) (by decide) rfl (by decide)
    (by decide) (by decide) (by decide)

end Palyan
